import Mathlib

/-!
Verification of the Ralph loop core (ralph.sh): the Task Selector, the
Progress Recorder (jq passes update with write-to-tmp-then-rename), and the
bounded Loop Controller, shallowly embedded from the shell script.
-/

namespace Ralph

/-- One user story of prd.json: id, title, description, acceptance criteria,
and the passes completion flag. -/
structure TaskItem where
  id : Int
  title : String
  description : String
  acceptance : List String
  passes : Bool
deriving DecidableEq

/-- Task Selector: jq -r selects userStories entries with .passes == false and
head -n 1 keeps the first one in document order (none when there is no such
entry). -/
def nextStory (l : List TaskItem) : Option TaskItem :=
  l.find? (fun it => it.passes == false)

/-- The per-item update performed by the jq filter
if .id == id then .passes = true else . end. -/
def applyMark (targetId : Int) (it : TaskItem) : TaskItem :=
  if it.id = targetId then { it with passes := true } else it

/-- Progress Recorder rewrite: .userStories = map of applyMark over the
stories, as done by the jq --argjson id update. -/
def markPassed (targetId : Int) (l : List TaskItem) : List TaskItem :=
  l.map (applyMark targetId)

/-- COMPLETED of the final summary: jq counts stories with .passes == true. -/
def countCompleted (l : List TaskItem) : Nat :=
  (l.filter (fun it => it.passes == true)).length

/-- Number of stories still incomplete (passes == false). -/
def countIncomplete (l : List TaskItem) : Nat :=
  (l.filter (fun it => it.passes == false)).length

/-- MAX_ITERATIONS=50 of ralph.sh. -/
def MAX_ITERATIONS : Nat := 50

/-- Commits produced by one iteration: the feat implementation commit and the
chore progress-update commit, each carrying the story id. -/
inductive Commit where
  | impl (id : Int)
  | progress (id : Int)
deriving DecidableEq

/-- One iteration body after a story was selected: when the agent call
succeeds, an implementation commit is made only when the working tree changed,
the story is marked passed and a progress commit is made; when the agent call
fails the script continues with nothing changed. -/
def runStep (agentOk hasChanges : Bool) (item : TaskItem) (l : List TaskItem) :
    List TaskItem × List Commit :=
  if agentOk then
    (markPassed item.id l,
      (if hasChanges then [Commit.impl item.id] else []) ++ [Commit.progress item.id])
  else
    (l, [])

/-- The while loop of ralph.sh: while ITERATION < MAX_ITERATIONS the counter
is incremented, the next story selected (break when none), and the iteration
body run. The oracles agent and changes give, per iteration number, whether
the claude call succeeded and whether the tree had uncommitted changes.
Returns the final iteration counter, story list and commit log. -/
def loopAux (agent changes : Nat → Bool) :
    Nat → Nat → List TaskItem → List Commit → Nat × List TaskItem × List Commit
  | 0, iter, l, cs => (iter, l, cs)
  | fuel + 1, iter, l, cs =>
    match nextStory l with
    | none => (iter + 1, l, cs)
    | some item =>
      loopAux agent changes fuel (iter + 1)
        (runStep (agent (iter + 1)) (changes (iter + 1)) item l).1
        (cs ++ (runStep (agent (iter + 1)) (changes (iter + 1)) item l).2)

/-- A whole run of ralph.sh starting at ITERATION=0 with full budget. -/
def ralphRun (agent changes : Nat → Bool) (l : List TaskItem) :
    Nat × List TaskItem × List Commit :=
  loopAux agent changes MAX_ITERATIONS 0 l []

/-- Terminal classification of the final summary: DONE when
COMPLETED -eq TOTAL, otherwise ABORTED (stories remain incomplete). -/
inductive FinalState where
  | DONE
  | ABORTED
deriving DecidableEq

/-- Final summary branch of ralph.sh on the final story list. -/
def finalState (l : List TaskItem) : FinalState :=
  if countCompleted l = l.length then FinalState.DONE else FinalState.ABORTED

/-- Disk state around the Progress Recorder: content of prd.json and of
prd.json.tmp when present. -/
structure Disk where
  prd : List TaskItem
  tmp : Option (List TaskItem)
deriving DecidableEq

/-- The jq rewrite redirected into prd.json.tmp: on success the temp file
holds the complete rewritten list and the step reports true; on jq failure the
temp file holds no complete document and the step reports false. prd.json is
not touched. -/
def writeTmpStep (target : Int) (jqOk : Bool) (d : Disk) : Disk × Bool :=
  if jqOk then ({ d with tmp := some (markPassed target d.prd) }, true)
  else ({ d with tmp := none }, false)

/-- mv prd.json.tmp prd.json: replace prd.json by the complete temp document. -/
def renameStep (d : Disk) : Disk :=
  match d.tmp with
  | some doc => { prd := doc, tmp := none }
  | none => d

/-- The persistence line of ralph.sh,
jq ... prd.json > prd.json.tmp && mv prd.json.tmp prd.json:
the rename runs only when the rewrite succeeded. -/
def persistPasses (target : Int) (jqOk : Bool) (d : Disk) : Disk :=
  let r := writeTmpStep target jqOk d
  if r.2 then renameStep r.1 else r.1

/-- How one stored item may relate to its successor across iterations:
identity, title, description and acceptance criteria are kept, and a set
passes flag is never cleared. -/
def evolves (a b : TaskItem) : Prop :=
  b.id = a.id ∧ b.title = a.title ∧ b.description = a.description ∧
  b.acceptance = a.acceptance ∧ (a.passes = true → b.passes = true)

/-- A concrete sample story used by witnesses. -/
def sampleItem (i : Int) (p : Bool) : TaskItem :=
  { id := i, title := "story", description := "desc", acceptance := ["ok"], passes := p }

/-! Basic facts about the jq per-item update. -/

theorem applyMark_id (t : Int) (it : TaskItem) : (applyMark t it).id = it.id := by
  unfold applyMark
  split <;> rfl

theorem applyMark_of_ne {t : Int} {it : TaskItem} (h : it.id ≠ t) :
    applyMark t it = it := by
  unfold applyMark
  simp [h]

theorem applyMark_of_eq {t : Int} {it : TaskItem} (h : it.id = t) :
    applyMark t it = { it with passes := true } := by
  unfold applyMark
  simp [h]

theorem applyMark_applyMark (t : Int) (it : TaskItem) :
    applyMark t (applyMark t it) = applyMark t it := by
  unfold applyMark
  by_cases h : it.id = t <;> simp [h]

theorem markPassed_nil (t : Int) : markPassed t [] = [] := rfl

theorem markPassed_cons (t : Int) (x : TaskItem) (xs : List TaskItem) :
    markPassed t (x :: xs) = applyMark t x :: markPassed t xs := rfl

theorem markPassed_length (t : Int) (l : List TaskItem) :
    (markPassed t l).length = l.length := by
  simp [markPassed]

theorem mem_markPassed_id {t : Int} {l : List TaskItem} {it : TaskItem}
    (h : it ∈ markPassed t l) : ∃ a ∈ l, it.id = a.id := by
  simp only [markPassed, List.mem_map] at h
  obtain ⟨a, ha, rfl⟩ := h
  exact ⟨a, ha, applyMark_id t a⟩

theorem markPassed_pairwise_ne {l : List TaskItem} (t : Int)
    (h : l.Pairwise (fun a b => a.id ≠ b.id)) :
    (markPassed t l).Pairwise (fun a b => a.id ≠ b.id) := by
  unfold markPassed
  rw [List.pairwise_map]
  refine h.imp ?_
  intro a b hab
  simpa [applyMark_id] using hab

/-! Claims about the Progress Recorder rewrite. -/

/-- C5: running the Progress Recorder's rewrite sets passes = true on exactly
the items whose id equals the target (changing nothing else in them) and
leaves every item with a different id fully unchanged; the list keeps its
length and its order (position by position). -/
theorem markPassed_frame (target : Int) (l : List TaskItem) :
    (markPassed target l).length = l.length ∧
    (∀ i : Nat, (markPassed target l)[i]? = (l[i]?).map (applyMark target)) ∧
    (∀ i : Nat, ∀ it : TaskItem, l[i]? = some it →
      ((it.id = target → (markPassed target l)[i]? = some { it with passes := true }) ∧
       (it.id ≠ target → (markPassed target l)[i]? = some it))) := by
  refine ⟨markPassed_length target l, ?_, ?_⟩
  · intro i
    simp [markPassed]
  · intro i it hit
    constructor
    · intro heq
      simp [markPassed, hit, applyMark_of_eq heq]
    · intro hne
      simp [markPassed, hit, applyMark_of_ne hne]

/-- Witness for C5 at a concrete two-story list and target id 1. -/
theorem markPassed_frame_witness :
    (markPassed 1 [sampleItem 1 false, sampleItem 2 true]).length =
      ([sampleItem 1 false, sampleItem 2 true] : List TaskItem).length ∧
    (∀ i : Nat, (markPassed 1 [sampleItem 1 false, sampleItem 2 true])[i]? =
      (([sampleItem 1 false, sampleItem 2 true] : List TaskItem)[i]?).map
        (applyMark 1)) ∧
    (∀ i : Nat, ∀ it : TaskItem,
      ([sampleItem 1 false, sampleItem 2 true] : List TaskItem)[i]? = some it →
      ((it.id = 1 → (markPassed 1 [sampleItem 1 false, sampleItem 2 true])[i]? =
          some { it with passes := true }) ∧
       (it.id ≠ 1 → (markPassed 1 [sampleItem 1 false, sampleItem 2 true])[i]? =
          some it))) :=
  markPassed_frame 1 [sampleItem 1 false, sampleItem 2 true]

/-- C6: the Progress Recorder's rewrite is idempotent; running it twice with
the same target id yields the same list as running it once. -/
theorem markPassed_idem (target : Int) (l : List TaskItem) :
    markPassed target (markPassed target l) = markPassed target l := by
  induction l with
  | nil => rfl
  | cons x xs ih =>
    rw [markPassed_cons, markPassed_cons, applyMark_applyMark, ih]

theorem markPassed_eq_of_absent {target : Int} {l : List TaskItem}
    (h : ∀ it ∈ l, it.id ≠ target) : markPassed target l = l := by
  induction l with
  | nil => rfl
  | cons x xs ih =>
    rw [markPassed_cons, applyMark_of_ne (h x (List.mem_cons_self x xs)),
      ih (fun it hit => h it (List.mem_cons_of_mem x hit))]

/-- C10: when the target id occurs in no item, the Progress Recorder's
rewrite is a no-op on the item sequence. -/
theorem markPassed_missing_noop (target : Int) (l : List TaskItem)
    (h : ∀ it ∈ l, it.id ≠ target) : markPassed target l = l :=
  markPassed_eq_of_absent h

/-- Witness for C10 at a concrete list and absent target id. -/
theorem markPassed_missing_noop_witness :
    (∀ it ∈ [sampleItem 1 false], it.id ≠ (7 : Int)) ∧
    markPassed 7 [sampleItem 1 false] = [sampleItem 1 false] :=
  ⟨by decide, markPassed_missing_noop 7 _ (by decide)⟩

/-- C8: the persistence step writes the rewrite to prd.json.tmp and renames
it over prd.json only when the rewrite succeeded; when the rewrite fails
prd.json is unchanged, and in every case prd.json holds either the old
complete document or the new complete document, never a partial one. -/
theorem persistPasses_atomic (target : Int) (d : Disk) :
    (persistPasses target false d).prd = d.prd ∧
    (persistPasses target true d).prd = markPassed target d.prd ∧
    (∀ jqOk : Bool, (persistPasses target jqOk d).prd = d.prd ∨
      (persistPasses target jqOk d).prd = markPassed target d.prd) := by
  refine ⟨rfl, rfl, ?_⟩
  intro jqOk
  cases jqOk with
  | false => exact Or.inl rfl
  | true => exact Or.inr rfl

/-- C7: when the agent succeeds and the working tree has no modifications,
the iteration creates no implementation commit, still marks the selected item
passes = true, and creates the progress-update commit; the step is the normal
success path, not an error. -/
theorem no_change_success (item : TaskItem) (l : List TaskItem) :
    runStep true false item l = (markPassed item.id l, [Commit.progress item.id]) ∧
    (∀ i : Int, Commit.impl i ∉ (runStep true false item l).2) ∧
    (∀ it ∈ (runStep true false item l).1, it.id = item.id → it.passes = true) := by
  refine ⟨rfl, ?_, ?_⟩
  · intro i hmem
    simp [runStep] at hmem
  · intro it hmem heq
    simp only [runStep, if_pos] at hmem
    simp only [markPassed, List.mem_map] at hmem
    obtain ⟨a, _, rfl⟩ := hmem
    rw [applyMark_id] at heq
    rw [applyMark_of_eq heq]

/-- Witness for C7 at a concrete item and list. -/
theorem no_change_success_witness :
    runStep true false (sampleItem 1 false) [sampleItem 1 false] =
      (markPassed (sampleItem 1 false).id [sampleItem 1 false],
        [Commit.progress (sampleItem 1 false).id]) ∧
    (∀ i : Int,
      Commit.impl i ∉ (runStep true false (sampleItem 1 false) [sampleItem 1 false]).2) ∧
    (∀ it ∈ (runStep true false (sampleItem 1 false) [sampleItem 1 false]).1,
      it.id = (sampleItem 1 false).id → it.passes = true) :=
  no_change_success (sampleItem 1 false) [sampleItem 1 false]

/-! Facts about the Task Selector. -/

theorem nextStory_eq_none (l : List TaskItem) :
    nextStory l = none ↔ ∀ it ∈ l, it.passes = true := by
  simp [nextStory, List.find?_eq_none]

theorem nextStory_mem {l : List TaskItem} {k : TaskItem}
    (h : nextStory l = some k) : k ∈ l :=
  List.mem_of_find?_eq_some h

theorem nextStory_passes {l : List TaskItem} {k : TaskItem}
    (h : nextStory l = some k) : k.passes = false := by
  have := List.find?_some h
  simpa using this

theorem nextStory_min {l : List TaskItem}
    (hsorted : l.Pairwise (fun a b => a.id < b.id)) {k : TaskItem}
    (h : nextStory l = some k) :
    ∀ it ∈ l, it.passes = false → k.id ≤ it.id := by
  induction l with
  | nil => simp [nextStory] at h
  | cons x xs ih =>
    rw [nextStory, List.find?_cons] at h
    rcases List.pairwise_cons.mp hsorted with ⟨hx, hxs⟩
    cases hpx : (x.passes == false) with
    | true =>
      rw [hpx] at h
      injection h with h
      subst h
      intro it hit _
      rcases List.mem_cons.mp hit with rfl | hmem
      · exact le_refl _
      · exact le_of_lt (hx it hmem)
    | false =>
      rw [hpx] at h
      intro it hit hfalse
      rcases List.mem_cons.mp hit with rfl | hmem
      · simp [hfalse] at hpx
      · exact ih hxs h it hmem hfalse

/-- C1: under the Task List invariant that ids are strictly increasing, the
Task Selector returns none exactly when every item has passes = true (in
particular on the empty list), and any returned item is an incomplete member
of the list whose id is minimal among the incomplete items. -/
theorem nextStory_spec (l : List TaskItem)
    (hsorted : l.Pairwise (fun a b => a.id < b.id)) :
    (nextStory l = none ↔ ∀ it ∈ l, it.passes = true) ∧
    (∀ k : TaskItem, nextStory l = some k →
      k ∈ l ∧ k.passes = false ∧ ∀ it ∈ l, it.passes = false → k.id ≤ it.id) := by
  refine ⟨nextStory_eq_none l, ?_⟩
  intro k hk
  exact ⟨nextStory_mem hk, nextStory_passes hk, nextStory_min hsorted hk⟩

/-- Witness for C1: a sorted three-story list whose first incomplete story
has id 2. -/
theorem nextStory_spec_witness :
    ([sampleItem 1 true, sampleItem 2 false, sampleItem 3 false] :
        List TaskItem).Pairwise (fun a b => a.id < b.id) ∧
    (nextStory [sampleItem 1 true, sampleItem 2 false, sampleItem 3 false] = none ↔
      ∀ it ∈ [sampleItem 1 true, sampleItem 2 false, sampleItem 3 false],
        it.passes = true) ∧
    (∀ k : TaskItem,
      nextStory [sampleItem 1 true, sampleItem 2 false, sampleItem 3 false] = some k →
      k ∈ [sampleItem 1 true, sampleItem 2 false, sampleItem 3 false] ∧
      k.passes = false ∧
      ∀ it ∈ [sampleItem 1 true, sampleItem 2 false, sampleItem 3 false],
        it.passes = false → k.id ≤ it.id) :=
  ⟨by decide, nextStory_spec _ (by decide)⟩

/-- C9: with strictly increasing ids, after the Progress Recorder has
recorded the selected item k, a restarted selection (reading the recorded
list afresh) never yields k again: any selected item has a strictly larger
id. -/
theorem resumable_after_recording (l : List TaskItem)
    (hsorted : l.Pairwise (fun a b => a.id < b.id)) (k k' : TaskItem)
    (hsel : nextStory l = some k)
    (hsel' : nextStory (markPassed k.id l) = some k') :
    k.id < k'.id ∧ k' ≠ k := by
  suffices h : k.id < k'.id by
    refine ⟨h, ?_⟩
    intro heq
    rw [heq] at h
    exact lt_irrefl _ h
  induction l with
  | nil => simp [nextStory] at hsel
  | cons x xs ih =>
    rw [nextStory, List.find?_cons] at hsel
    rcases List.pairwise_cons.mp hsorted with ⟨hx, hxs⟩
    cases hpx : (x.passes == false) with
    | true =>
      rw [hpx] at hsel
      injection hsel with hsel
      subst hsel
      rw [nextStory, markPassed_cons, applyMark_of_eq rfl, List.find?_cons] at hsel'
      simp only [Bool.false_eq_true] at hsel'
      have hmem : k' ∈ markPassed x.id xs := List.mem_of_find?_eq_some hsel'
      obtain ⟨a, ha, hid⟩ := mem_markPassed_id hmem
      rw [hid]
      exact hx a ha
    | false =>
      rw [hpx] at hsel
      have hkmem : k ∈ xs := List.mem_of_find?_eq_some hsel
      have hne : x.id ≠ k.id := ne_of_lt (hx k hkmem)
      rw [nextStory, markPassed_cons, applyMark_of_ne hne, List.find?_cons, hpx]
        at hsel'
      exact ih hxs hsel hsel'

/-- Witness for C9: recording item 1 of a two-story list makes the next
selection pick item 2. -/
theorem resumable_after_recording_witness :
    ([sampleItem 1 false, sampleItem 2 false] :
        List TaskItem).Pairwise (fun a b => a.id < b.id) ∧
    nextStory [sampleItem 1 false, sampleItem 2 false] = some (sampleItem 1 false) ∧
    nextStory (markPassed (sampleItem 1 false).id
        [sampleItem 1 false, sampleItem 2 false]) = some (sampleItem 2 false) ∧
    (sampleItem 1 false).id < (sampleItem 2 false).id ∧
    sampleItem 2 false ≠ sampleItem 1 false :=
  ⟨by decide, by decide, by decide,
    resumable_after_recording [sampleItem 1 false, sampleItem 2 false] (by decide)
      (sampleItem 1 false) (sampleItem 2 false) (by decide) (by decide)⟩

/-! The loop on agent failure. -/

theorem runStep_fail (c : Bool) (item : TaskItem) (l : List TaskItem) :
    runStep false c item l = (l, []) := rfl

theorem runStep_fst_true (c : Bool) (item : TaskItem) (l : List TaskItem) :
    (runStep true c item l).1 = markPassed item.id l := rfl

/-- C3: when the claude call of an iteration fails, the Progress Recorder
does not run (no list change, no commit); the iteration is still consumed
from the budget and, the list being unchanged, the same still-incomplete item
is selected again on the next iteration. -/
theorem invoke_failure_retries (agent changes : Nat → Bool) (fuel iter : Nat)
    (l : List TaskItem) (cs : List Commit) (item : TaskItem)
    (hsel : nextStory l = some item) (hfail : agent (iter + 1) = false) :
    runStep (agent (iter + 1)) (changes (iter + 1)) item l = (l, []) ∧
    loopAux agent changes (fuel + 1) iter l cs =
      loopAux agent changes fuel (iter + 1) l cs ∧
    item.passes = false ∧ nextStory l = some item := by
  have h1 : runStep (agent (iter + 1)) (changes (iter + 1)) item l = (l, []) := by
    rw [hfail]
    exact runStep_fail (changes (iter + 1)) item l
  refine ⟨h1, ?_, nextStory_passes hsel, hsel⟩
  simp only [loopAux, hsel, h1, List.append_nil]

/-- Witness for C3 at a one-story list and an always-failing agent. -/
theorem invoke_failure_retries_witness :
    nextStory [sampleItem 1 false] = some (sampleItem 1 false) ∧
    (fun _ : Nat => false) (0 + 1) = false ∧
    loopAux (fun _ => false) (fun _ => true) 1 0 [sampleItem 1 false] [] =
      loopAux (fun _ => false) (fun _ => true) 0 1 [sampleItem 1 false] [] ∧
    (sampleItem 1 false).passes = false :=
  ⟨by decide, rfl,
    (invoke_failure_retries (fun _ => false) (fun _ => true) 0 0
      [sampleItem 1 false] [] (sampleItem 1 false) (by decide) rfl).2.1,
    (invoke_failure_retries (fun _ => false) (fun _ => true) 0 0
      [sampleItem 1 false] [] (sampleItem 1 false) (by decide) rfl).2.2.1⟩

/-! Monotonic evolution of the store across iterations. -/

theorem evolves_refl (a : TaskItem) : evolves a a :=
  ⟨rfl, rfl, rfl, rfl, fun h => h⟩

theorem evolves_trans {a b c : TaskItem} (h1 : evolves a b) (h2 : evolves b c) :
    evolves a c :=
  ⟨h2.1.trans h1.1, h2.2.1.trans h1.2.1, h2.2.2.1.trans h1.2.2.1,
    h2.2.2.2.1.trans h1.2.2.2.1, fun h => h2.2.2.2.2 (h1.2.2.2.2 h)⟩

theorem evolves_applyMark (t : Int) (it : TaskItem) : evolves it (applyMark t it) := by
  unfold applyMark
  by_cases h : it.id = t
  · simp only [if_pos h]
    exact ⟨rfl, rfl, rfl, rfl, fun _ => rfl⟩
  · simp only [if_neg h]
    exact evolves_refl it

theorem forall2_evolves_refl (l : List TaskItem) : List.Forall₂ evolves l l :=
  List.forall₂_same.mpr (fun a _ => evolves_refl a)

theorem forall2_evolves_trans {a b c : List TaskItem}
    (h1 : List.Forall₂ evolves a b) (h2 : List.Forall₂ evolves b c) :
    List.Forall₂ evolves a c := by
  induction h1 generalizing c with
  | nil =>
    cases h2
    exact List.Forall₂.nil
  | cons hab h1' ih =>
    cases h2 with
    | cons hbc h2' => exact List.Forall₂.cons (evolves_trans hab hbc) (ih h2')

theorem forall2_evolves_markPassed (t : Int) (l : List TaskItem) :
    List.Forall₂ evolves l (markPassed t l) := by
  induction l with
  | nil => exact List.Forall₂.nil
  | cons x xs ih => exact List.Forall₂.cons (evolves_applyMark t x) ih

theorem runStep_evolves (a c : Bool) (item : TaskItem) (l : List TaskItem) :
    List.Forall₂ evolves l (runStep a c item l).1 := by
  cases a with
  | false => exact forall2_evolves_refl l
  | true => exact forall2_evolves_markPassed item.id l

theorem loop_evolves (agent changes : Nat → Bool) :
    ∀ (fuel iter : Nat) (l : List TaskItem) (cs : List Commit),
      List.Forall₂ evolves l (loopAux agent changes fuel iter l cs).2.1 := by
  intro fuel
  induction fuel with
  | zero =>
    intro iter l cs
    exact forall2_evolves_refl l
  | succ fuel ih =>
    intro iter l cs
    cases hsel : nextStory l with
    | none =>
      simp only [loopAux, hsel]
      exact forall2_evolves_refl l
    | some item =>
      simp only [loopAux, hsel]
      exact forall2_evolves_trans
        (runStep_evolves (agent (iter + 1)) (changes (iter + 1)) item l)
        (ih (iter + 1) _ _)

theorem forall2_evolves_passes {l l' : List TaskItem}
    (h : List.Forall₂ evolves l l') :
    ∀ i : Int, (∃ it ∈ l, it.id = i ∧ it.passes = true) →
      ∃ it ∈ l', it.id = i ∧ it.passes = true := by
  induction h with
  | nil =>
    intro i hex
    obtain ⟨it, hmem, _⟩ := hex
    exact absurd hmem (List.not_mem_nil it)
  | @cons a b la lb hab h' ih =>
    intro i hex
    obtain ⟨it, hmem, hid, hp⟩ := hex
    rcases List.mem_cons.mp hmem with rfl | hmem'
    · exact ⟨b, List.mem_cons_self b lb, hab.1.trans hid, hab.2.2.2.2 hp⟩
    · obtain ⟨it', hmem'', hprops⟩ := ih i ⟨it, hmem', hid, hp⟩
      exact ⟨it', List.mem_cons_of_mem b hmem'', hprops⟩

/-- C4: across any run of the loop, each stored item keeps its id, title,
description and acceptance criteria at its position (no deletion, no
reordering), a passes flag once true is never cleared, and hence the set of
ids whose item has passes = true only grows. -/
theorem monotonic_progress (agent changes : Nat → Bool) (fuel iter : Nat)
    (l : List TaskItem) (cs : List Commit) :
    List.Forall₂ evolves l (loopAux agent changes fuel iter l cs).2.1 ∧
    ∀ i : Int, (∃ it ∈ l, it.id = i ∧ it.passes = true) →
      ∃ it ∈ (loopAux agent changes fuel iter l cs).2.1,
        it.id = i ∧ it.passes = true := by
  refine ⟨loop_evolves agent changes fuel iter l cs, ?_⟩
  intro i hex
  exact forall2_evolves_passes (loop_evolves agent changes fuel iter l cs) i hex

/-- Witness for C4 at a concrete one-iteration run. -/
theorem monotonic_progress_witness :
    List.Forall₂ evolves [sampleItem 1 true, sampleItem 2 false]
      (loopAux (fun _ => true) (fun _ => true) 1 0
        [sampleItem 1 true, sampleItem 2 false] []).2.1 ∧
    ∀ i : Int,
      (∃ it ∈ [sampleItem 1 true, sampleItem 2 false], it.id = i ∧ it.passes = true) →
      ∃ it ∈ (loopAux (fun _ => true) (fun _ => true) 1 0
          [sampleItem 1 true, sampleItem 2 false] []).2.1,
        it.id = i ∧ it.passes = true :=
  monotonic_progress (fun _ => true) (fun _ => true) 1 0
    [sampleItem 1 true, sampleItem 2 false] []

/-! Counting lemmas for the final summary and the budget bound. -/

theorem countIncomplete_cons (x : TaskItem) (xs : List TaskItem) :
    countIncomplete (x :: xs) =
      (if x.passes = false then 1 else 0) + countIncomplete xs := by
  cases hx : x.passes with
  | false =>
    simp [countIncomplete, List.filter, hx]
    omega
  | true => simp [countIncomplete, List.filter, hx]

theorem countCompleted_cons (x : TaskItem) (xs : List TaskItem) :
    countCompleted (x :: xs) =
      (if x.passes = true then 1 else 0) + countCompleted xs := by
  cases hx : x.passes with
  | false => simp [countCompleted, List.filter, hx]
  | true =>
    simp [countCompleted, List.filter, hx]
    omega

theorem count_split (l : List TaskItem) :
    countCompleted l + countIncomplete l = l.length := by
  induction l with
  | nil => rfl
  | cons x xs ih =>
    rw [countIncomplete_cons, countCompleted_cons, List.length_cons]
    cases hx : x.passes <;> simp [hx] <;> omega

theorem nextStory_some_of_pos {l : List TaskItem}
    (h : 0 < countIncomplete l) : ∃ item, nextStory l = some item := by
  rw [← Option.isSome_iff_exists]
  rw [nextStory, List.find?_isSome]
  unfold countIncomplete at h
  rcases List.exists_mem_of_length_pos h with ⟨a, ha⟩
  rcases List.mem_filter.mp ha with ⟨hmem, hp⟩
  exact ⟨a, hmem, hp⟩

theorem countIncomplete_markPassed (t : Int) :
    ∀ {l : List TaskItem}, l.Pairwise (fun a b => a.id ≠ b.id) →
      countIncomplete l ≤ countIncomplete (markPassed t l) + 1 := by
  intro l h
  induction l with
  | nil => simp [markPassed_nil]
  | cons x xs ih =>
    rcases List.pairwise_cons.mp h with ⟨hx, hxs⟩
    rw [markPassed_cons, countIncomplete_cons, countIncomplete_cons]
    by_cases hxt : x.id = t
    · have habs : ∀ it ∈ xs, it.id ≠ t := by
        intro it hit
        rw [← hxt]
        exact fun he => hx it hit he.symm
      rw [markPassed_eq_of_absent habs, applyMark_of_eq hxt]
      simp only [TaskItem.passes]
      split <;> omega
    · rw [applyMark_of_ne hxt]
      have := ih hxs
      omega

theorem loop_iter_le (agent changes : Nat → Bool) :
    ∀ (fuel iter : Nat) (l : List TaskItem) (cs : List Commit),
      (loopAux agent changes fuel iter l cs).1 ≤ iter + fuel := by
  intro fuel
  induction fuel with
  | zero =>
    intro iter l cs
    exact Nat.le_refl _
  | succ fuel ih =>
    intro iter l cs
    cases hsel : nextStory l with
    | none =>
      simp only [loopAux, hsel]
      omega
    | some item =>
      simp only [loopAux, hsel]
      have := ih (iter + 1)
        (runStep (agent (iter + 1)) (changes (iter + 1)) item l).1
        (cs ++ (runStep (agent (iter + 1)) (changes (iter + 1)) item l).2)
      omega

theorem loop_over_budget (agent changes : Nat → Bool) :
    ∀ (fuel iter : Nat) (l : List TaskItem) (cs : List Commit),
      l.Pairwise (fun a b => a.id ≠ b.id) → fuel < countIncomplete l →
      (loopAux agent changes fuel iter l cs).1 = iter + fuel ∧
      countIncomplete l ≤
        countIncomplete (loopAux agent changes fuel iter l cs).2.1 + fuel := by
  intro fuel
  induction fuel with
  | zero =>
    intro iter l cs _ _
    exact ⟨rfl, Nat.le_refl _⟩
  | succ fuel ih =>
    intro iter l cs hnd hlt
    obtain ⟨item, hsel⟩ := nextStory_some_of_pos (Nat.lt_of_lt_of_le (Nat.zero_lt_succ fuel) (Nat.le_of_lt hlt))
    simp only [loopAux, hsel]
    cases hagent : agent (iter + 1) with
    | false =>
      simp only [runStep_fail, List.append_nil]
      have := ih (iter + 1) l cs hnd (by omega)
      omega
    | true =>
      rw [runStep_fst_true]
      have hdec := countIncomplete_markPassed item.id hnd
      have hnd' := markPassed_pairwise_ne item.id hnd
      have := ih (iter + 1) (markPassed item.id l)
        (cs ++ (runStep true (changes (iter + 1)) item l).2) hnd' (by omega)
      omega

/-- C2: no run of the loop ever performs more than MAX_ITERATIONS = 50
iterations; and for a Task List (distinct ids) with more than 50 incomplete
items, the run stops with iteration counter exactly 50, with incomplete items
remaining, in the ABORTED summary branch, where the reported completed and
total counts determine the exact number of remaining incomplete items. -/
theorem budget_enforced (agent changes : Nat → Bool) (l : List TaskItem) :
    (ralphRun agent changes l).1 ≤ MAX_ITERATIONS ∧
    (l.Pairwise (fun a b => a.id ≠ b.id) → MAX_ITERATIONS < countIncomplete l →
      (ralphRun agent changes l).1 = MAX_ITERATIONS ∧
      0 < countIncomplete (ralphRun agent changes l).2.1 ∧
      finalState (ralphRun agent changes l).2.1 = FinalState.ABORTED ∧
      (ralphRun agent changes l).2.1.length -
          countCompleted (ralphRun agent changes l).2.1 =
        countIncomplete (ralphRun agent changes l).2.1) := by
  constructor
  · have := loop_iter_le agent changes MAX_ITERATIONS 0 l []
    simpa [ralphRun] using this
  · intro hnd hlt
    have hmain := loop_over_budget agent changes MAX_ITERATIONS 0 l [] hnd hlt
    have hsplit := count_split (ralphRun agent changes l).2.1
    have h1 : (ralphRun agent changes l).1 = MAX_ITERATIONS := by
      have := hmain.1
      simpa [ralphRun] using this
    have h2 : 0 < countIncomplete (ralphRun agent changes l).2.1 := by
      have := hmain.2
      simp only [ralphRun]
      omega
    refine ⟨h1, h2, ?_, by omega⟩
    unfold finalState
    rw [if_neg]
    omega

/-- A 51-story list, all incomplete, with distinct ids. -/
def manyItems : List TaskItem :=
  (List.range 51).map (fun n => sampleItem (Int.ofNat n) false)

/-- Witness for C2: on the 51-story list with an always-succeeding agent the
run stops at exactly 50 iterations in the ABORTED branch. -/
theorem budget_enforced_witness :
    manyItems.Pairwise (fun a b => a.id ≠ b.id) ∧
    MAX_ITERATIONS < countIncomplete manyItems ∧
    (ralphRun (fun _ => true) (fun _ => true) manyItems).1 = MAX_ITERATIONS ∧
    finalState (ralphRun (fun _ => true) (fun _ => true) manyItems).2.1 =
      FinalState.ABORTED :=
  ⟨by decide, by decide,
    ((budget_enforced (fun _ => true) (fun _ => true) manyItems).2
      (by decide) (by decide)).1,
    ((budget_enforced (fun _ => true) (fun _ => true) manyItems).2
      (by decide) (by decide)).2.2.1⟩

end Ralph
